import Mathlib

/-!
Verification of the aggregation pipeline of the Agents repository
(`src/data_processor.py` and `src/insight_generator.py`).

The Python code is shallowly embedded: dictionaries with optional keys
become structures with `Option` fields, Python floats become `ℚ`
(arithmetic and comparisons are the exact counterparts of the float
operations the code performs), and the two external effects are made
explicit parameters:

* file input (`load_data`'s `try/except` around `open`+`json.load`) is
  modelled by an `Except` value describing the outcome of the read;
* every use of Python's unordered `list(set(xs))` is modelled by an
  enumeration function `enum : List String → List String` together with
  the predicate `ValidSetList` saying that `enum xs` lists the distinct
  values of `xs` in some order — exactly what CPython guarantees (the
  actual order depends on the process hash seed).

`nltk.sent_tokenize` is an external collaborator: the free-text field of
an item (the `content`/`text`/`caption` precedence chain of the code) is
carried in already-tokenized form as `contentSentences`.
-/

namespace Agents

/-- Engagement sub-dictionary of an item: raw counts are ignored by the
pipeline, which only reads `normalized_engagement` and `total_engagement`
(each possibly absent). -/
structure Engagement where
  normalized_engagement : Option ℚ
  total_engagement : Option ℚ
deriving DecidableEq, Repr

/-- An input record (`Item` of the spec).  `engagement = none` models a
missing or non-dict `engagement` entry.  `contentSentences` is the free
text field (`content`/`text`/`caption` precedence) after the external
`nltk.sent_tokenize`; a missing field gives `[]`. -/
structure Item where
  source : Option String
  contentSentences : List String
  entities : List String
  hashtags : List String
  relevance_score : Option ℚ
  engagement : Option Engagement
deriving DecidableEq, Repr

/-- Engagement value of an item: `normalized_engagement` if present, else
`total_engagement`, else `0` (used identically in `filter_by_engagement`,
`extract_trending_topics` and `generate_engagement_metrics`). -/
def engagementValue (it : Item) : ℚ :=
  match it.engagement with
  | none => 0
  | some e =>
    match e.normalized_engagement with
    | some v => v
    | none =>
      match e.total_engagement with
      | some v => v
      | none => 0

/-- `DataProcessor.load_data`: the outcome of `open`+`json.load` is the
argument; the `except` branch returns the empty list. -/
def load_data (result : Except String (List Item)) : List Item :=
  match result with
  | .ok data => data
  | .error _ => []

/-- `DataProcessor.filter_by_relevance`:
`[item for item in data if item.get("relevance_score", 0) >= min_score]`. -/
def filter_by_relevance (min_score : ℚ) (data : List Item) : List Item :=
  data.filter (fun it => decide (min_score ≤ it.relevance_score.getD 0))

/-- Insertion of one value into an ascending run, as performed by a
comparison sort on the engagement values (`pandas` sorts the series before
interpolating the quantile). -/
def insertAsc (x : ℚ) : List ℚ → List ℚ
  | [] => [x]
  | y :: ys => if x ≤ y then x :: y :: ys else y :: insertAsc x ys

/-- Ascending sort of the engagement values. -/
def sortAsc (l : List ℚ) : List ℚ := l.foldr insertAsc []

/-- Linear interpolation at position `h` on a sorted value sequence:
`x⟨⌊h⌋⟩ + (h - ⌊h⌋) * (x⟨⌊h⌋+1⟩ - x⟨⌊h⌋⟩)`, indices clamped to the last
element (for `0 ≤ p ≤ 1` the clamp only matters when the fractional part
is zero). -/
def quantAt (s : List ℚ) (h : ℚ) : ℚ :=
  let n := s.length
  let i : ℕ := (⌊h⌋).toNat
  let γ : ℚ := h - (⌊h⌋ : ℚ)
  let lo := s.getD (min i (n - 1)) 0
  let hi := s.getD (min (i + 1) (n - 1)) 0
  lo + γ * (hi - lo)

/-- `pandas.Series(values).quantile(p)` with the default linear
interpolation: position `h = p * (n - 1)` on the sorted values. -/
def quantileLinear (values : List ℚ) (p : ℚ) : ℚ :=
  if values.length = 0 then 0
  else quantAt (sortAsc values) (p * ((values.length : ℚ) - 1))

/-- `DataProcessor.filter_by_engagement`: keep the items whose engagement
value is at least the `min_percentile` quantile of all values. -/
def filter_by_engagement (min_percentile : ℚ) (data : List Item) : List Item :=
  if data.isEmpty then []
  else
    let engagement_values := data.map engagementValue
    let threshold :=
      if engagement_values.isEmpty then 0
      else quantileLinear engagement_values min_percentile
    ((data.zip engagement_values).filter (fun pr => decide (threshold ≤ pr.2))).map (·.1)

/-- One `Counter` update (`collections.Counter` counting one more
occurrence of `k`): increment the entry of `k`, or append a fresh entry at
the end — insertion order of a Python dict is first-seen order. -/
def counterAdd1 : List (String × ℕ) → String → List (String × ℕ)
  | [], k => [(k, 1)]
  | p :: ps, k => if p.1 = k then (p.1, p.2 + 1) :: ps else p :: counterAdd1 ps k

/-- `collections.Counter(l)`: frequency table in first-seen key order. -/
def counterOf (l : List String) : List (String × ℕ) := l.foldl counterAdd1 []

/-- Dictionary lookup with default `0` (`Counter.__getitem__`). -/
def counterLookup : List (String × ℕ) → String → ℕ
  | [], _ => 0
  | p :: ps, k => if p.1 = k then p.2 else counterLookup ps k

/-- `Counter.__add__`: keys of the left counter first (each with the sum
of both counts), then the keys only present in the right counter; entries
with a non-positive count are dropped (vacuous here since all counts are
positive). -/
def counterMerge (c1 c2 : List (String × ℕ)) : List (String × ℕ) :=
  (c1.map (fun p => (p.1, p.2 + counterLookup c2 p.1))).filter (fun p => decide (0 < p.2))
    ++ c2.filter (fun p => !(c1.any (fun q => decide (q.1 = p.1))) && decide (0 < p.2))

/-- Insertion into a descending run: walk past the strictly greater keys,
so that among equal keys the earlier element stays first. -/
def insertDescBy {α β : Type} [LinearOrder β] (key : α → β) (x : α) : List α → List α
  | [] => [x]
  | y :: ys => if key x < key y then y :: insertDescBy key x ys else x :: y :: ys

/-- Stable descending sort by `key` — the behaviour of Python's stable
`sorted(..., key=..., reverse=True)` / `list.sort(..., reverse=True)`
(equal keys keep source order). -/
def sortDescBy {α β : Type} [LinearOrder β] (key : α → β) : List α → List α
  | [] => []
  | x :: xs => insertDescBy key x (sortDescBy key xs)

/-- `Counter.most_common(n)`: the `n` largest entries, stably ordered. -/
def mostCommon (n : ℕ) (c : List (String × ℕ)) : List (String × ℕ) :=
  (sortDescBy (·.2) c).take n

/-- `all_entities` accumulation: `for item in data: all_entities.extend(item.get("entities", []))`
(the code guards with `if entities:`, which is equivalent). -/
def allEntities (data : List Item) : List String :=
  data.foldl (fun acc it => acc ++ it.entities) []

/-- `all_hashtags` accumulation of `extract_trending_topics`. -/
def allHashtags (data : List Item) : List String :=
  data.foldl (fun acc it => acc ++ it.hashtags) []

/-- The entities selected by `group_by_topic`:
`[e for e, c in entity_counter.most_common(10) if c > 1]`, kept as
`(entity, count)` pairs. -/
def selectedPairs (data : List Item) : List (String × ℕ) :=
  (mostCommon 10 (counterOf (allEntities data))).filter (fun p => decide (1 < p.2))

/-- The selected topic entities themselves. -/
def topEntities (data : List Item) : List String := (selectedPairs data).map (·.1)

/-- Position-indexed view of the input list.  Within one run every list
position holds a distinct freshly-parsed object, so the position is a
faithful stand-in for Python's `id()`. -/
def enumIdx {α : Type} : ℕ → List α → List (ℕ × α)
  | _, [] => []
  | n, x :: xs => (n, x) :: enumIdx (n + 1) xs

/-- Python dict assignment `m[k] = v` on an insertion-ordered mapping:
if the key exists its value is replaced in place (position kept),
otherwise the pair is appended. -/
def dictInsert {β : Type} (m : List (String × β)) (k : String) (v : β) :
    List (String × β) :=
  if m.any (fun p => decide (p.1 = k)) then
    m.map (fun p => if p.1 = k then (k, v) else p)
  else m ++ [(k, v)]

/-- `DataProcessor.group_by_topic`: one cluster per selected entity (its
members are every item whose entity list contains it), then the
assignment `topics["outros"] = ...` stores the items whose `id()` was
never appended to a named cluster.  The final step is a dict assignment:
if a selected entity is literally named `outros`, its cluster is
overwritten. -/
def group_by_topic (data : List Item) : List (String × List Item) :=
  let indexed := enumIdx 0 data
  let namedIdx := (topEntities data).map
    (fun e => (e, indexed.filter (fun q => decide (e ∈ q.2.entities))))
  let named := namedIdx.map (fun pr => (pr.1, pr.2.map (·.2)))
  let classified : List ℕ := namedIdx.foldl (fun acc pr => acc ++ pr.2.map (·.1)) []
  let outros := (indexed.filter (fun q => !(classified.any (fun i => decide (i = q.1))))).map (·.2)
  dictInsert named "outros" outros

/-- A trending topic record as produced by `extract_trending_topics`; the
`key_facts` key is only added later by `consolidate_data`, so it starts
out empty. -/
structure TrendTopic where
  topic : String
  count : ℕ
  avg_engagement : ℚ
  sources : List String
  related_items_count : ℕ
  key_facts : List String
deriving DecidableEq, Repr

/-- A set-enumeration function is valid when it lists exactly the
distinct values of its argument (the guarantee of `list(set(xs))`,
whose order depends on the process hash seed). -/
def ValidSetList (enum : List String → List String) : Prop :=
  ∀ xs : List String, (enum xs).Nodup ∧ ∀ a, a ∈ enum xs ↔ a ∈ xs

/-- Order-preserving deduplication (first occurrence wins).  This is one
valid set enumeration, and the one the spec mandates for key facts. -/
def dedupFirst : List String → List String
  | [] => []
  | x :: xs => x :: (dedupFirst xs).filter (fun y => decide (y ≠ x))

/-- `DataProcessor.extract_trending_topics`: merge the entity and hashtag
frequency tables, take the `top_n` entries, and describe each by its
related items (those whose entities or hashtags contain the topic).
`enum` models the `list(set(...))` pass over the related sources. -/
def extract_trending_topics (enum : List String → List String)
    (data : List Item) (top_n : ℕ) : List TrendTopic :=
  let entity_counter := counterOf (allEntities data)
  let hashtag_counter := counterOf (allHashtags data)
  let combined_counter := counterMerge entity_counter hashtag_counter
  (mostCommon top_n combined_counter).map (fun p =>
    let related_items := data.filter
      (fun it => decide (p.1 ∈ it.entities) || decide (p.1 ∈ it.hashtags))
    let engagement_sum := related_items.foldl (fun acc it => acc + engagementValue it) 0
    { topic := p.1
      count := p.2
      avg_engagement :=
        if related_items.length = 0 then 0
        else engagement_sum / (related_items.length : ℚ)
      sources := enum (related_items.map (fun it => it.source.getD ""))
      related_items_count := related_items.length
      key_facts := [] })

/-- ASCII lower-casing of one character code (`str.lower`; the claims
only exercise ASCII case folding). -/
def charLower (n : ℕ) : ℕ := if 65 ≤ n ∧ n ≤ 90 then n + 32 else n

/-- The character codes of a string. -/
def strCodes (s : String) : List ℕ := s.data.map Char.toNat

/-- Lower-cased character codes of a string (`s.lower()`). -/
def lowerCodes (s : String) : List ℕ := (strCodes s).map charLower

/-- Does the text start with the pattern? -/
def startsWithSeq : List ℕ → List ℕ → Bool
  | [], _ => true
  | _ :: _, [] => false
  | p :: ps, c :: cs => decide (p = c) && startsWithSeq ps cs

/-- Occurrence of a pattern anywhere in the text (Python's `in`). -/
def containsSeq (pat : List ℕ) : List ℕ → Bool
  | [] => startsWithSeq pat []
  | c :: cs => startsWithSeq pat (c :: cs) || containsSeq pat cs

/-- Case-insensitive substring test (`topic.lower() in s.lower()`). -/
def substrCI (topic s : String) : Bool :=
  containsSeq (lowerCodes topic) (lowerCodes s)

/-- Whitespace character codes recognized by `str.split()`. -/
def isSpaceCode (n : ℕ) : Bool :=
  decide (n = 32) || decide (n = 9) || decide (n = 10)
    || decide (n = 13) || decide (n = 11) || decide (n = 12)

/-- Word counting scan: `inWord` says whether the previous character was
part of a word. -/
def countWordsAux : List ℕ → Bool → ℕ
  | [], _ => 0
  | c :: cs, inWord =>
    if isSpaceCode c then countWordsAux cs false
    else (if inWord then 0 else 1) + countWordsAux cs true

/-- `len(s.split())`: number of maximal whitespace-free runs. -/
def wordCount (s : String) : ℕ := countWordsAux (strCodes s) false

/-- `DataProcessor.extract_key_facts`: collect, over the items related to
the topic, the sentences containing the topic case-insensitively; pass
them through `list(set(...))` (`enum`), drop sentences of at most five
words, keep the first ten.  Containment of the topic in the free text is
checked on the tokenized sentences, which selects the same sentences. -/
def extract_key_facts (enum : List String → List String)
    (data : List Item) (topic : String) : List String :=
  let related_items := data.filter (fun it =>
    decide (topic ∈ it.entities) || decide (topic ∈ it.hashtags)
      || it.contentSentences.any (fun s => substrCI topic s))
  let sentences := related_items.foldl
    (fun acc it => acc ++ it.contentSentences.filter (fun s => substrCI topic s)) []
  let unique_sentences := enum sentences
  let filtered_sentences := unique_sentences.filter (fun s => decide (5 < wordCount s))
  filtered_sentences.take 10

/-- Output shape of `DataProcessor.consolidate_data` (the serialized
`consolidated_data.json`). -/
structure Consolidated where
  total_items : ℕ
  filtered_items : ℕ
  topics : List (String × List Item)
  trending_topics : List TrendTopic
  processed_at : String
deriving DecidableEq, Repr

/-- `DataProcessor.consolidate_data` on already-loaded data: relevance
filter (config default `0.6`), engagement filter (default percentile
`0.3`), topic grouping, trend extraction (default `top_n = 5`), key facts
per trending topic.  `now` is the `datetime.now().isoformat()` stamp. -/
def consolidate_data (enum : List String → List String) (now : String)
    (all_data : List Item) : Consolidated :=
  let filtered1 := filter_by_relevance 0.6 all_data
  let filtered := filter_by_engagement 0.3 filtered1
  let grouped := group_by_topic filtered
  let trending := extract_trending_topics enum filtered 5
  let trending := trending.map
    (fun t => { t with key_facts := extract_key_facts enum filtered t.topic })
  { total_items := all_data.length
    filtered_items := filtered.length
    topics := grouped
    trending_topics := trending
    processed_at := now }

/-- A topic insight row of `insights.json` (the one-line `summary` string
is presentation-only and not modelled). -/
structure TopicInsight where
  topic : String
  mentions : ℕ
  engagement : ℚ
  trend_score : ℚ
  trend_status : String
  sources : List String
  key_facts : List String
deriving DecidableEq, Repr

/-- The per-topic body of `InsightGenerator.generate_topic_insights`:
`trend_score = count*0.6 + avg_engagement*0.4`, banded status with strict
comparisons. -/
def insightOf (trending_threshold : ℚ) (t : TrendTopic) : TopicInsight :=
  let trend_score : ℚ := (t.count : ℚ) * 0.6 + t.avg_engagement * 0.4
  { topic := t.topic
    mentions := t.count
    engagement := t.avg_engagement
    trend_score := trend_score
    trend_status :=
      if trending_threshold < trend_score then "Alta"
      else if trending_threshold / 2 < trend_score then "Média"
      else "Baixa"
    sources := t.sources
    key_facts := t.key_facts }

/-- `InsightGenerator.generate_topic_insights`: score every trending
topic, then `topic_insights.sort(key=trend_score, reverse=True)`. -/
def generate_topic_insights (trending_threshold : ℚ)
    (trending_topics : List TrendTopic) : List TopicInsight :=
  sortDescBy (·.trend_score) (trending_topics.map (insightOf trending_threshold))

/-- A content recommendation row. -/
structure Recommendation where
  topic : String
  key_facts : List String
  recommendation : String
  priority : String
deriving DecidableEq, Repr

/-- The trend score recomputed inline by
`generate_content_recommendations` (`count*0.6 + avg_engagement*0.4`). -/
def trendScoreOf (t : TrendTopic) : ℚ :=
  (t.count : ℚ) * 0.6 + t.avg_engagement * 0.4

/-- Rationale string of a high-band recommendation. -/
def highRecText (topic : String) : String :=
  "Criar matéria sobre " ++ topic ++ " com base nos fatos coletados."

/-- Rationale string of a medium-band recommendation. -/
def mediumRecText (topic : String) : String :=
  "Considerar matéria sobre " ++ topic ++ " se houver desenvolvimento adicional."

/-- Recommendation emitted for a high-band topic. -/
def highRec (t : TrendTopic) : Recommendation :=
  { topic := t.topic
    key_facts := t.key_facts
    recommendation := highRecText t.topic
    priority := if 3 ≤ t.key_facts.length then "Alta" else "Média" }

/-- Recommendation emitted for a medium-band topic. -/
def mediumRec (t : TrendTopic) : Recommendation :=
  { topic := t.topic
    key_facts := t.key_facts
    recommendation := mediumRecText t.topic
    priority := "Média" }

/-- `InsightGenerator.generate_content_recommendations`: one pass over
the topics above the trending threshold, then a second pass over the
topics strictly between half the threshold and the threshold, appending a
recommendation only when the topic has at least two key facts. -/
def generate_content_recommendations (trending_threshold : ℚ)
    (trending_topics : List TrendTopic) : List Recommendation :=
  let high_trend_topics := trending_topics.filter
    (fun t => decide (trending_threshold < trendScoreOf t))
  let recommendations := high_trend_topics.map highRec
  let medium_trend_topics := trending_topics.filter
    (fun t => decide (trending_threshold / 2 < trendScoreOf t)
      && decide (trendScoreOf t ≤ trending_threshold))
  medium_trend_topics.foldl
    (fun acc t => if 2 ≤ t.key_facts.length then acc ++ [mediumRec t] else acc)
    recommendations

/-- Per-source engagement metrics row.  In the code the
`high_engagement_percentage` key only appears in the averaging pass; here
it is present from the start with value `0`. -/
structure SourceMetrics where
  total_items : ℕ
  total_engagement : ℚ
  avg_engagement : ℚ
  high_engagement_items : ℕ
  high_engagement_percentage : ℚ
deriving DecidableEq, Repr

/-- Fresh metrics row created when a source is first seen. -/
def emptyMetrics : SourceMetrics :=
  { total_items := 0, total_engagement := 0, avg_engagement := 0
    high_engagement_items := 0, high_engagement_percentage := 0 }

/-- Update the entry of `k` in an association list (the key is present). -/
def tableUpdate {β : Type} (f : β → β) : List (String × β) → String → List (String × β)
  | [], _ => []
  | p :: ps, k => if p.1 = k then (p.1, f p.2) :: ps else p :: tableUpdate f ps k

/-- The accumulation step of `generate_engagement_metrics` for one item:
create the source's row if absent, then add the item's counts. -/
def metricsStep (engagement_threshold : ℚ)
    (tbl : List (String × SourceMetrics)) (it : Item) : List (String × SourceMetrics) :=
  let source := it.source.getD "Desconhecido"
  let tbl := if tbl.any (fun p => decide (p.1 = source)) then tbl
    else tbl ++ [(source, emptyMetrics)]
  let v := engagementValue it
  tableUpdate (fun m =>
    { m with
      total_items := m.total_items + 1
      total_engagement := m.total_engagement + v
      high_engagement_items :=
        m.high_engagement_items + (if engagement_threshold < v then 1 else 0) })
    tbl source

/-- All items of the `topics` mapping, flattened in cluster order
(an item is counted once per cluster containing it). -/
def allItemsOfTopics (topics : List (String × List Item)) : List Item :=
  topics.foldl (fun acc p => acc ++ p.2) []

/-- `InsightGenerator.generate_engagement_metrics`: accumulate per-source
totals over the cluster-weighted item population, then fill in the
averages (guarded by `total_items > 0`). -/
def generate_engagement_metrics (engagement_threshold : ℚ)
    (topics : List (String × List Item)) : List (String × SourceMetrics) :=
  let all_items := allItemsOfTopics topics
  let tbl := all_items.foldl (metricsStep engagement_threshold) []
  tbl.map (fun p =>
    (p.1,
      if 0 < p.2.total_items then
        { p.2 with
          avg_engagement := p.2.total_engagement / (p.2.total_items : ℚ)
          high_engagement_percentage :=
            ((p.2.high_engagement_items : ℚ) / (p.2.total_items : ℚ)) * 100 }
      else
        { p.2 with avg_engagement := 0, high_engagement_percentage := 0 }))

/-- `InsightGenerator.generate_source_distribution` counts the
cluster-weighted population per source and turns it into percentages. -/
def generate_source_distribution (topics : List (String × List Item)) :
    List (String × (ℕ × ℚ)) :=
  let all_items := allItemsOfTopics topics
  let source_counts := counterOf (all_items.map (fun it => it.source.getD "Desconhecido"))
  source_counts.map (fun p =>
    (p.1, (p.2,
      if 0 < all_items.length then ((p.2 : ℚ) / (all_items.length : ℚ)) * 100 else 0)))

/-- Output shape of `InsightGenerator.generate_all_insights`
(the serialized `insights.json`). -/
structure AllInsights where
  source_distribution : List (String × (ℕ × ℚ))
  topic_insights : List TopicInsight
  engagement_metrics : List (String × SourceMetrics)
  content_recommendations : List Recommendation
  generated_at : String
deriving DecidableEq, Repr

/-- `InsightGenerator.generate_all_insights` on loaded consolidated data,
with the config defaults `engagement_threshold = 0.5` and
`trending_threshold = 0.7`; `now` is the `datetime.now().isoformat()`
stamp. -/
def generate_all_insights (now : String) (data : Consolidated) : AllInsights :=
  { source_distribution := generate_source_distribution data.topics
    topic_insights := generate_topic_insights 0.7 data.trending_topics
    engagement_metrics := generate_engagement_metrics 0.5 data.topics
    content_recommendations := generate_content_recommendations 0.7 data.trending_topics
    generated_at := now }

/-- A second valid set enumeration: the distinct values in reversed
first-occurrence order.  CPython gives no ordering guarantee for
`list(set(...))`, so this is as legitimate an outcome as `dedupFirst`. -/
def revEnum : List String → List String := fun xs => (dedupFirst xs).reverse

/-- First qualifying sentence of the key-fact examples (eight words,
mentions the topic). -/
def sentA : String := "Lula fez um pronunciamento importante hoje em Brasilia"

/-- Second qualifying sentence (nine words, mentions the topic in upper
case). -/
def sentB : String := "O presidente LULA visitou novamente a regiao sul ontem"

/-- Input item for the key-fact order analysis: two qualifying sentences
in source order `sentA, sentB`. -/
def kfItem : Item :=
  { source := some "G1"
    contentSentences := [sentA, sentB]
    entities := ["Lula"]
    hashtags := []
    relevance_score := some 1
    engagement := some { normalized_engagement := some 1, total_engagement := none } }

/-- First item of the trend-merge example: entities `Lula, Dilma`,
hashtag `Lula`. -/
def tmItem1 : Item :=
  { source := some "G1"
    contentSentences := []
    entities := ["Lula", "Dilma"]
    hashtags := ["Lula"]
    relevance_score := some 1
    engagement := none }

/-- Second item of the trend-merge example: entity `Lula`, hashtag
`Bolsonaro`; the concatenated entity stream is `Lula, Dilma, Lula` and
the hashtag stream is `Lula, Bolsonaro`. -/
def tmItem2 : Item :=
  { source := some "Twitter"
    contentSentences := []
    entities := ["Lula"]
    hashtags := ["Bolsonaro"]
    relevance_score := some 1
    engagement := none }

/-- An item mentioning only `Lula`. -/
def grItemL : Item :=
  { source := some "G1", contentSentences := [], entities := ["Lula"]
    hashtags := [], relevance_score := some 1, engagement := none }

/-- An item mentioning only `Dilma`. -/
def grItemD : Item :=
  { source := some "Twitter", contentSentences := [], entities := ["Dilma"]
    hashtags := [], relevance_score := some 1, engagement := none }

/-- Grouping example: `Lula` occurs twice (selected), `Dilma` once
(dropped by the `count > 1` filter, so its item falls into `outros`). -/
def grData : List Item := [grItemL, grItemL, grItemD]

/-- An item with no engagement data at all (value `0`). -/
def zeroItem : Item :=
  { source := some "G1", contentSentences := [], entities := []
    hashtags := [], relevance_score := none, engagement := none }

/-- A one-cluster topics mapping used to exercise the engagement
metrics. -/
def emTopics : List (String × List Item) := [("outros", [zeroItem])]

/-- Two-item list for the engagement-filter witnesses. -/
def efData : List Item := [zeroItem, kfItem]

/-- An item whose only entity is the literal string `outros`. -/
def ovItem : Item :=
  { source := some "G1", contentSentences := [], entities := ["outros"]
    hashtags := [], relevance_score := some 1, engagement := none }

/-- A second item mentioning only the entity `outros`. -/
def ovItem2 : Item :=
  { source := some "Twitter", contentSentences := [], entities := ["outros"]
    hashtags := [], relevance_score := some 1, engagement := none }

/-- Input on which the entity `outros` is selected (frequency 2), so the
final `topics["outros"]` assignment collides with its cluster. -/
def ovData : List Item := [ovItem, ovItem2]

/-- The metrics row produced for `emTopics`: one `G1` item with zero
engagement. -/
def emRow : String × SourceMetrics :=
  ("G1", { total_items := 1, total_engagement := 0, avg_engagement := 0
           high_engagement_items := 0, high_engagement_percentage := 0 })

/-- A trend candidate whose trend score is exactly `0.7`
(`1 * 0.6 + 0.25 * 0.4`). -/
def boundaryMedia : TrendTopic :=
  { topic := "limiar", count := 1, avg_engagement := 0.25, sources := []
    related_items_count := 1, key_facts := [] }

/-- A trend candidate whose trend score is exactly `0.35`
(`0 * 0.6 + 0.875 * 0.4`). -/
def boundaryBaixa : TrendTopic :=
  { topic := "limiar2", count := 0, avg_engagement := 0.875, sources := []
    related_items_count := 1, key_facts := [] }

/-! ### Lemmas about the stable descending sort -/

theorem insertDescBy_perm {α β : Type} [LinearOrder β] (key : α → β) (x : α)
    (l : List α) : List.Perm (insertDescBy key x l) (x :: l) := by
  induction l with
  | nil => simp [insertDescBy]
  | cons y ys ih =>
    by_cases h : key x < key y
    · simp only [insertDescBy, if_pos h]
      exact (ih.cons y).trans (List.Perm.swap x y ys)
    · simp [insertDescBy, if_neg h]

theorem sortDescBy_perm {α β : Type} [LinearOrder β] (key : α → β) (l : List α) :
    List.Perm (sortDescBy key l) l := by
  induction l with
  | nil => simp [sortDescBy]
  | cons x xs ih => exact (insertDescBy_perm key x (sortDescBy key xs)).trans (ih.cons x)

theorem mem_insertDescBy {α β : Type} [LinearOrder β] {key : α → β} {x a : α}
    {l : List α} (h : a ∈ insertDescBy key x l) : a = x ∨ a ∈ l :=
  List.mem_cons.mp ((insertDescBy_perm key x l).mem_iff.mp h)

theorem insertDescBy_sorted {α β : Type} [LinearOrder β] (key : α → β) (x : α)
    {l : List α} (h : l.Sorted (fun a b => key b ≤ key a)) :
    (insertDescBy key x l).Sorted (fun a b => key b ≤ key a) := by
  induction l with
  | nil => simp [insertDescBy]
  | cons y ys ih =>
    rw [List.sorted_cons] at h
    by_cases hxy : key x < key y
    · simp only [insertDescBy, if_pos hxy]
      rw [List.sorted_cons]
      refine ⟨fun b hb => ?_, ih h.2⟩
      rcases mem_insertDescBy hb with rfl | hb
      · exact le_of_lt hxy
      · exact h.1 b hb
    · simp only [insertDescBy, if_neg hxy]
      rw [List.sorted_cons]
      refine ⟨fun b hb => ?_, by rw [List.sorted_cons]; exact h⟩
      rcases List.mem_cons.mp hb with rfl | hb
      · exact le_of_not_lt hxy
      · exact le_trans (h.1 b hb) (le_of_not_lt hxy)

theorem sortDescBy_sorted {α β : Type} [LinearOrder β] (key : α → β) (l : List α) :
    (sortDescBy key l).Sorted (fun a b => key b ≤ key a) := by
  induction l with
  | nil => simp [sortDescBy]
  | cons x xs ih => exact insertDescBy_sorted key x ih

theorem filter_insertDescBy {α β : Type} [LinearOrder β] [DecidableEq β]
    (key : α → β) (c : β) (x : α) (l : List α) :
    (insertDescBy key x l).filter (fun a => decide (key a = c)) =
      if key x = c then x :: l.filter (fun a => decide (key a = c))
      else l.filter (fun a => decide (key a = c)) := by
  induction l with
  | nil => by_cases h : key x = c <;> simp [insertDescBy, h]
  | cons y ys ih =>
    by_cases hxy : key x < key y
    · have hyx : ¬ (key x = c ∧ key y = c) := by
        rintro ⟨h1, h2⟩; rw [h1] at hxy; rw [h2] at hxy; exact lt_irrefl c hxy
      simp only [insertDescBy, if_pos hxy, List.filter_cons]
      by_cases hy : key y = c
      · have hx : ¬ key x = c := fun hx => hyx ⟨hx, hy⟩
        simp [hy, hx, ih]
      · by_cases hx : key x = c <;> simp [hy, hx, ih]
    · simp only [insertDescBy, if_neg hxy]
      by_cases hx : key x = c <;> simp [List.filter_cons, hx]

theorem filter_sortDescBy {α β : Type} [LinearOrder β] [DecidableEq β]
    (key : α → β) (c : β) (l : List α) :
    (sortDescBy key l).filter (fun a => decide (key a = c)) =
      l.filter (fun a => decide (key a = c)) := by
  induction l with
  | nil => simp [sortDescBy]
  | cons x xs ih =>
    simp only [sortDescBy, filter_insertDescBy, ih, List.filter_cons]
    by_cases hx : key x = c <;> simp [hx]

/-! ### Lemmas about the ascending sort and the linear quantile -/

theorem insertAsc_perm (x : ℚ) (l : List ℚ) : List.Perm (insertAsc x l) (x :: l) := by
  induction l with
  | nil => simp [insertAsc]
  | cons y ys ih =>
    by_cases h : x ≤ y
    · simp [insertAsc, h]
    · simp only [insertAsc, if_neg h]
      exact (ih.cons y).trans (List.Perm.swap x y ys)

theorem sortAsc_perm (l : List ℚ) : List.Perm (sortAsc l) l := by
  induction l with
  | nil => simp [sortAsc]
  | cons x xs ih =>
    exact (insertAsc_perm x (sortAsc xs)).trans (List.Perm.cons x ih)

theorem mem_insertAsc {x a : ℚ} {l : List ℚ} (h : a ∈ insertAsc x l) :
    a = x ∨ a ∈ l :=
  List.mem_cons.mp ((insertAsc_perm x l).mem_iff.mp h)

theorem insertAsc_sorted (x : ℚ) {l : List ℚ} (h : l.Sorted (· ≤ ·)) :
    (insertAsc x l).Sorted (· ≤ ·) := by
  induction l with
  | nil => simp [insertAsc]
  | cons y ys ih =>
    rw [List.sorted_cons] at h
    by_cases hxy : x ≤ y
    · simp only [insertAsc, if_pos hxy]
      rw [List.sorted_cons]
      refine ⟨fun b hb => ?_, by rw [List.sorted_cons]; exact h⟩
      rcases List.mem_cons.mp hb with rfl | hb
      · exact hxy
      · exact le_trans hxy (h.1 b hb)
    · simp only [insertAsc, if_neg hxy]
      rw [List.sorted_cons]
      refine ⟨fun b hb => ?_, ih h.2⟩
      rcases mem_insertAsc hb with rfl | hb
      · exact le_of_not_le hxy
      · exact h.1 b hb

theorem sortAsc_sorted (l : List ℚ) : (sortAsc l).Sorted (· ≤ ·) := by
  induction l with
  | nil => simp [sortAsc]
  | cons x xs ih => exact insertAsc_sorted x ih

theorem sortAsc_length (l : List ℚ) : (sortAsc l).length = l.length :=
  (sortAsc_perm l).length_eq

theorem sorted_getD_mono {s : List ℚ} (hs : s.Sorted (· ≤ ·)) {i j : ℕ}
    (hij : i ≤ j) (hj : j < s.length) : s.getD i 0 ≤ s.getD j 0 := by
  have hi : i < s.length := lt_of_le_of_lt hij hj
  rw [List.getD_eq_getElem _ _ hi, List.getD_eq_getElem _ _ hj]
  exact hs.rel_get_of_le (show (⟨i, hi⟩ : Fin s.length) ≤ ⟨j, hj⟩ from hij)

/-- The clamped accessor used by `quantAt` is monotone in the index. -/
theorem sorted_getD_clamp_mono {s : List ℚ} (hs : s.Sorted (· ≤ ·))
    (hne : s.length ≠ 0) {i j : ℕ} (hij : i ≤ j) :
    s.getD (min i (s.length - 1)) 0 ≤ s.getD (min j (s.length - 1)) 0 := by
  apply sorted_getD_mono hs (min_le_min hij (le_refl _))
  have : s.length - 1 < s.length := Nat.sub_lt (Nat.pos_of_ne_zero hne) one_pos
  exact lt_of_le_of_lt (min_le_right _ _) this

theorem quantAt_mono {s : List ℚ} (hs : s.Sorted (· ≤ ·)) (hne : s.length ≠ 0)
    {h1 h2 : ℚ} (h0 : 0 ≤ h1) (h12 : h1 ≤ h2) : quantAt s h1 ≤ quantAt s h2 := by
  have hff : ⌊h1⌋ ≤ ⌊h2⌋ := Int.floor_le_floor h12
  have hf0 : (0 : ℤ) ≤ ⌊h1⌋ := Int.floor_nonneg.mpr h0
  have hγ1a : (0 : ℚ) ≤ h1 - (⌊h1⌋ : ℚ) := by
    have := Int.floor_le h1; linarith
  have hγ1b : h1 - (⌊h1⌋ : ℚ) ≤ 1 := by
    have := Int.lt_floor_add_one h1; linarith
  have hγ2a : (0 : ℚ) ≤ h2 - (⌊h2⌋ : ℚ) := by
    have := Int.floor_le h2; linarith
  unfold quantAt
  rcases eq_or_lt_of_le hff with heq | hlt
  · -- same floor: the same segment, larger fraction
    rw [heq]
    have hd : s.getD (min (⌊h2⌋.toNat) (s.length - 1)) 0 ≤
        s.getD (min ((⌊h2⌋.toNat) + 1) (s.length - 1)) 0 :=
      sorted_getD_clamp_mono hs hne (Nat.le_succ _)
    have hγ12 : h1 - (⌊h2⌋ : ℚ) ≤ h2 - (⌊h2⌋ : ℚ) := by linarith
    have := mul_le_mul_of_nonneg_right hγ12 (by linarith :
      (0 : ℚ) ≤ s.getD (min ((⌊h2⌋.toNat) + 1) (s.length - 1)) 0 -
        s.getD (min (⌊h2⌋.toNat) (s.length - 1)) 0)
    simp only
    linarith
  · -- the first segment ends no later than the second begins
    have hi12 : (⌊h1⌋).toNat + 1 ≤ (⌊h2⌋).toNat := by
      have h2pos : (0 : ℤ) < ⌊h2⌋ := lt_of_le_of_lt hf0 hlt
      omega
    have hd1 : s.getD (min (⌊h1⌋.toNat) (s.length - 1)) 0 ≤
        s.getD (min ((⌊h1⌋.toNat) + 1) (s.length - 1)) 0 :=
      sorted_getD_clamp_mono hs hne (Nat.le_succ _)
    have hd2 : s.getD (min (⌊h2⌋.toNat) (s.length - 1)) 0 ≤
        s.getD (min ((⌊h2⌋.toNat) + 1) (s.length - 1)) 0 :=
      sorted_getD_clamp_mono hs hne (Nat.le_succ _)
    have hmid : s.getD (min ((⌊h1⌋.toNat) + 1) (s.length - 1)) 0 ≤
        s.getD (min (⌊h2⌋.toNat) (s.length - 1)) 0 :=
      sorted_getD_clamp_mono hs hne hi12
    have hup : (h1 - (⌊h1⌋ : ℚ)) *
        (s.getD (min ((⌊h1⌋.toNat) + 1) (s.length - 1)) 0 -
          s.getD (min (⌊h1⌋.toNat) (s.length - 1)) 0) ≤
        s.getD (min ((⌊h1⌋.toNat) + 1) (s.length - 1)) 0 -
          s.getD (min (⌊h1⌋.toNat) (s.length - 1)) 0 :=
      mul_le_of_le_one_left (by linarith) hγ1b
    have hdown : (0 : ℚ) ≤ (h2 - (⌊h2⌋ : ℚ)) *
        (s.getD (min ((⌊h2⌋.toNat) + 1) (s.length - 1)) 0 -
          s.getD (min (⌊h2⌋.toNat) (s.length - 1)) 0) :=
      mul_nonneg hγ2a (by linarith)
    simp only
    linarith

/-- The interpolated quantile never exceeds the last (largest) sorted
value. -/
theorem quantAt_le_last {s : List ℚ} (hs : s.Sorted (· ≤ ·))
    (hne : s.length ≠ 0) (h : ℚ) : quantAt s h ≤ s.getD (s.length - 1) 0 := by
  have hγa : (0 : ℚ) ≤ h - (⌊h⌋ : ℚ) := by
    have := Int.floor_le h; linarith
  have hγb : h - (⌊h⌋ : ℚ) ≤ 1 := by
    have := Int.lt_floor_add_one h; linarith
  have hd : s.getD (min (⌊h⌋.toNat) (s.length - 1)) 0 ≤
      s.getD (min ((⌊h⌋.toNat) + 1) (s.length - 1)) 0 :=
    sorted_getD_clamp_mono hs hne (Nat.le_succ _)
  have hlast : s.getD (min ((⌊h⌋.toNat) + 1) (s.length - 1)) 0 ≤
      s.getD (s.length - 1) 0 :=
    sorted_getD_mono hs (min_le_right _ _)
      (Nat.sub_lt (Nat.pos_of_ne_zero hne) one_pos)
  have hup : (h - (⌊h⌋ : ℚ)) *
      (s.getD (min ((⌊h⌋.toNat) + 1) (s.length - 1)) 0 -
        s.getD (min (⌊h⌋.toNat) (s.length - 1)) 0) ≤
      s.getD (min ((⌊h⌋.toNat) + 1) (s.length - 1)) 0 -
        s.getD (min (⌊h⌋.toNat) (s.length - 1)) 0 :=
    mul_le_of_le_one_left (by linarith) hγb
  unfold quantAt
  simp only
  linarith

theorem quantileLinear_mono (values : List ℚ) {p q : ℚ} (hp : 0 ≤ p)
    (hpq : p ≤ q) : quantileLinear values p ≤ quantileLinear values q := by
  unfold quantileLinear
  by_cases hn : values.length = 0
  · simp [hn]
  · rw [if_neg hn, if_neg hn]
    have hlen : (sortAsc values).length ≠ 0 := by rwa [sortAsc_length]
    have hge1 : (1 : ℚ) ≤ (values.length : ℚ) := by
      have : 1 ≤ values.length := Nat.pos_of_ne_zero hn
      exact_mod_cast this
    have hnn : (0 : ℚ) ≤ (values.length : ℚ) - 1 := by linarith
    exact quantAt_mono (sortAsc_sorted values) hlen
      (mul_nonneg hp hnn) (mul_le_mul_of_nonneg_right hpq hnn)

/-! ### The engagement filter as a plain filter -/

theorem zip_map_filter {α β : Type} (f : α → β) (pred : β → Bool) (l : List α) :
    ((l.zip (l.map f)).filter (fun pr => pred pr.2)).map (·.1)
      = l.filter (fun a => pred (f a)) := by
  induction l with
  | nil => rfl
  | cons x xs ih =>
    simp only [List.map_cons, List.zip_cons_cons, List.filter_cons]
    by_cases h : pred (f x) <;> simp [h, ih]

/-- The index-based filtering loop of `filter_by_engagement` keeps
exactly the items whose engagement value reaches the quantile
threshold. -/
theorem filter_by_engagement_eq (p : ℚ) (data : List Item) :
    filter_by_engagement p data = data.filter (fun it =>
      decide (quantileLinear (data.map engagementValue) p ≤ engagementValue it)) := by
  cases data with
  | nil => rfl
  | cons x xs =>
    unfold filter_by_engagement
    simp only [List.isEmpty_cons, Bool.false_eq_true, if_false, List.map_cons,
      List.isEmpty_nil]
    exact zip_map_filter engagementValue
      (fun v => decide (quantileLinear (engagementValue x :: List.map engagementValue xs) p ≤ v))
      (x :: xs)

/-! ### Lemmas about the Counter model -/

theorem counterLookup_counterAdd1 (c : List (String × ℕ)) (k' k : String) :
    counterLookup (counterAdd1 c k') k =
      counterLookup c k + if k' = k then 1 else 0 := by
  induction c with
  | nil => by_cases h : k' = k <;> simp [counterAdd1, counterLookup, h]
  | cons p ps ih =>
    obtain ⟨a, n⟩ := p
    by_cases ha : a = k'
    · subst ha
      simp only [counterAdd1, if_pos rfl]
      by_cases hk : a = k
      · subst hk; simp [counterLookup]
      · simp [counterLookup, hk]
    · simp only [counterAdd1, if_neg ha]
      by_cases hk : a = k
      · subst hk
        have : ¬ k' = a := fun h => ha h.symm
        simp [counterLookup, this]
      · simp [counterLookup, hk, ih]

theorem counterLookup_foldl (l : List String) (acc : List (String × ℕ)) (k : String) :
    counterLookup (l.foldl counterAdd1 acc) k = counterLookup acc k + l.count k := by
  induction l generalizing acc with
  | nil => simp
  | cons x xs ih =>
    rw [List.foldl_cons, ih, counterLookup_counterAdd1, List.count_cons]
    rcases eq_or_ne x k with rfl | h
    · rw [if_pos rfl, beq_self_eq_true, if_pos rfl]
      omega
    · have hbe : (x == k) = false := beq_eq_false_iff_ne.mpr h
      rw [if_neg h, hbe, if_neg (by simp)]
      omega

/-- The frequency table realizes exact occurrence counts. -/
theorem counterLookup_counterOf (l : List String) (k : String) :
    counterLookup (counterOf l) k = l.count k := by
  have := counterLookup_foldl l [] k
  simpa [counterOf, counterLookup] using this

theorem counterAdd1_pos {c : List (String × ℕ)} (h : ∀ p ∈ c, 0 < p.2)
    (k : String) : ∀ p ∈ counterAdd1 c k, 0 < p.2 := by
  induction c with
  | nil => simp [counterAdd1]
  | cons q qs ih =>
    intro p hp
    by_cases hq : q.1 = k
    · simp only [counterAdd1, if_pos hq] at hp
      rcases List.mem_cons.mp hp with rfl | hp
      · simp
      · exact h p (List.mem_cons_of_mem _ hp)
    · simp only [counterAdd1, if_neg hq] at hp
      rcases List.mem_cons.mp hp with rfl | hp
      · exact h p (List.mem_cons_self _ _)
      · exact ih (fun r hr => h r (List.mem_cons_of_mem _ hr)) p hp

theorem counterOf_pos (l : List String) : ∀ p ∈ counterOf l, 0 < p.2 := by
  suffices h : ∀ (acc : List (String × ℕ)), (∀ p ∈ acc, 0 < p.2) →
      ∀ p ∈ l.foldl counterAdd1 acc, 0 < p.2 by
    exact h [] (by simp)
  induction l with
  | nil => intro acc hacc; simpa using hacc
  | cons x xs ih =>
    intro acc hacc
    exact ih (counterAdd1 acc x) (counterAdd1_pos hacc x)

theorem counterLookup_cons (a : String × ℕ) (ps : List (String × ℕ)) (k : String) :
    counterLookup (a :: ps) k = if a.1 = k then a.2 else counterLookup ps k := rfl

theorem counterLookup_append (c1 c2 : List (String × ℕ)) (k : String) :
    counterLookup (c1 ++ c2) k =
      if c1.any (fun q => decide (q.1 = k)) then counterLookup c1 k
      else counterLookup c2 k := by
  induction c1 with
  | nil => simp [counterLookup]
  | cons p ps ih =>
    by_cases hp : p.1 = k
    · simp [counterLookup, hp]
    · simp only [List.cons_append, counterLookup_cons, List.any_cons,
        decide_eq_false hp, Bool.false_or, if_neg hp, ih]

theorem counterLookup_map_add (c2 : List (String × ℕ)) :
    ∀ (c1 : List (String × ℕ)) (k : String),
    counterLookup (c1.map (fun p => (p.1, p.2 + counterLookup c2 p.1))) k =
      if c1.any (fun q => decide (q.1 = k)) then
        counterLookup c1 k + counterLookup c2 k
      else 0 := by
  intro c1
  induction c1 with
  | nil => intro k; simp [counterLookup]
  | cons p ps ih =>
    intro k
    by_cases hp : p.1 = k
    · subst hp; simp [counterLookup]
    · simp only [List.map_cons, counterLookup_cons, List.any_cons,
        decide_eq_false hp, Bool.false_or, if_neg hp, ih]

theorem counterLookup_filter (q : String × ℕ → Bool) (c : List (String × ℕ))
    (k : String) (h : ∀ p ∈ c, p.1 = k → q p = true) :
    counterLookup (c.filter q) k = counterLookup c k := by
  induction c with
  | nil => simp
  | cons p ps ih =>
    by_cases hp : p.1 = k
    · have : q p = true := h p (List.mem_cons_self _ _) hp
      simp [List.filter_cons, this, counterLookup, hp]
    · by_cases hq : q p = true
      · simp [List.filter_cons, hq, counterLookup, hp,
          ih (fun r hr hk => h r (List.mem_cons_of_mem _ hr) hk)]
      · simp only [List.filter_cons, hq, Bool.false_eq_true, if_false]
        rw [ih (fun r hr hk => h r (List.mem_cons_of_mem _ hr) hk)]
        simp [counterLookup, hp]

/-- `Counter.__add__` adds the counts of the two tables key by key
(whenever all stored counts are positive, as they are for real frequency
tables). -/
theorem counterMerge_lookup (c1 c2 : List (String × ℕ))
    (h1 : ∀ p ∈ c1, 0 < p.2) (h2 : ∀ p ∈ c2, 0 < p.2) (k : String) :
    counterLookup (counterMerge c1 c2) k =
      counterLookup c1 k + counterLookup c2 k := by
  unfold counterMerge
  have hA : (c1.map (fun p => (p.1, p.2 + counterLookup c2 p.1))).filter
      (fun p => decide (0 < p.2)) =
      c1.map (fun p => (p.1, p.2 + counterLookup c2 p.1)) := by
    apply List.filter_eq_self.mpr
    intro p hp
    rcases List.mem_map.mp hp with ⟨r, hr, rfl⟩
    simpa using Or.inl (h1 r hr)
  rw [hA, counterLookup_append]
  have hany : (c1.map (fun p => (p.1, p.2 + counterLookup c2 p.1))).any
      (fun q => decide (q.1 = k)) = c1.any (fun q => decide (q.1 = k)) := by
    rw [List.any_map]; rfl
  rw [hany]
  by_cases hk : c1.any (fun q => decide (q.1 = k)) = true
  · rw [if_pos hk, counterLookup_map_add, if_pos hk]
  · rw [if_neg hk]
    have hz : counterLookup c1 k = 0 := by
      clear hA hany
      induction c1 with
      | nil => rfl
      | cons p ps ih =>
        simp only [List.any_cons, Bool.or_eq_true, decide_eq_true_eq] at hk
        push_neg at hk
        simp [counterLookup, hk.1, ih
          (fun r hr => h1 r (List.mem_cons_of_mem _ hr)) (by simpa using hk.2)]
    rw [hz, Nat.zero_add, counterLookup_filter]
    intro p hp hpk
    have hb : c1.any (fun q => decide (q.1 = p.1)) = false := by
      rw [hpk]; exact Bool.not_eq_true _ ▸ eq_false_of_ne_true hk
    simp [hb, h2 p hp]

theorem counterAdd1_any (c : List (String × ℕ)) (x y : String) :
    (counterAdd1 c x).any (fun q => decide (q.1 = y)) =
      (c.any (fun q => decide (q.1 = y)) || decide (x = y)) := by
  induction c with
  | nil => simp [counterAdd1]
  | cons p ps ih =>
    by_cases hp : p.1 = x
    · simp only [counterAdd1, if_pos hp, List.any_cons]
      by_cases hy : x = y
      · subst hy; simp [hp]
      · by_cases hpy : p.1 = y <;> simp [hpy, hy]
    · simp only [counterAdd1, if_neg hp, List.any_cons, ih]
      by_cases hpy : p.1 = y <;> simp [hpy, Bool.or_assoc]

theorem counterAdd1_keys (c : List (String × ℕ)) (k : String) :
    (counterAdd1 c k).map (·.1) =
      if c.any (fun q => decide (q.1 = k)) then c.map (·.1)
      else c.map (·.1) ++ [k] := by
  induction c with
  | nil => simp [counterAdd1]
  | cons p ps ih =>
    by_cases hp : p.1 = k
    · simp [counterAdd1, hp]
    · simp only [counterAdd1, if_neg hp, List.map_cons, List.any_cons, ih]
      by_cases hk : ps.any (fun q => decide (q.1 = k)) = true
      · simp [hk, hp]
      · simp only [Bool.or_eq_true, decide_eq_true_eq] at *
        simp [hp, hk]

theorem counterOf_keys_aux (l : List String) :
    ∀ acc : List (String × ℕ),
    (l.foldl counterAdd1 acc).map (·.1) =
      acc.map (·.1) ++ (dedupFirst l).filter
        (fun y => !(acc.any (fun q => decide (q.1 = y)))) := by
  induction l with
  | nil => intro acc; simp [dedupFirst]
  | cons x xs ih =>
    intro acc
    rw [List.foldl_cons, ih (counterAdd1 acc x), counterAdd1_keys]
    have hd : dedupFirst (x :: xs) =
        x :: (dedupFirst xs).filter (fun y => decide (y ≠ x)) := rfl
    by_cases hx : acc.any (fun q => decide (q.1 = x)) = true
    · rw [if_pos hx, hd, List.filter_cons]
      rw [show (!(acc.any (fun q => decide (q.1 = x)))) = false by rw [hx]; rfl]
      simp only [Bool.false_eq_true, if_false]
      congr 1
      rw [List.filter_filter]
      apply List.filter_congr
      intro y hy
      rw [counterAdd1_any]
      by_cases hay : acc.any (fun q => decide (q.1 = y)) = true
      · simp [hay]
      · have hxy : ¬ x = y := by
          intro h; subst h; exact hay hx
        simp [hay]
        exact eq_comm
    · rw [if_neg hx, hd, List.filter_cons]
      rw [show (!(acc.any (fun q => decide (q.1 = x)))) = true by
        rw [eq_false_of_ne_true hx]; rfl]
      simp only [if_true]
      rw [List.append_assoc, List.singleton_append]
      congr 2
      rw [List.filter_filter]
      apply List.filter_congr
      intro y hy
      rw [counterAdd1_any]
      by_cases hay : acc.any (fun q => decide (q.1 = y)) = true
      · simp [hay]
      · by_cases hxy : x = y
        · subst hxy; simp [hay]
        · simp [hay]
          exact eq_comm

/-- The keys of the frequency table are the distinct values in
first-occurrence order (Python dict insertion order). -/
theorem counterOf_keys (l : List String) :
    (counterOf l).map (·.1) = dedupFirst l := by
  have := counterOf_keys_aux l []
  simpa [counterOf] using this

/-! ### Valid set enumerations -/

theorem mem_dedupFirst (l : List String) (a : String) :
    a ∈ dedupFirst l ↔ a ∈ l := by
  induction l with
  | nil => simp [dedupFirst]
  | cons x xs ih =>
    simp only [dedupFirst, List.mem_cons, List.mem_filter]
    constructor
    · rintro (rfl | ⟨h, _⟩)
      · exact .inl rfl
      · exact .inr (ih.mp h)
    · rintro (rfl | h)
      · exact .inl rfl
      · by_cases hax : a = x
        · exact .inl hax
        · exact .inr ⟨ih.mpr h, by simp [hax]⟩

theorem nodup_dedupFirst (l : List String) : (dedupFirst l).Nodup := by
  induction l with
  | nil => simp [dedupFirst]
  | cons x xs ih =>
    simp only [dedupFirst, List.nodup_cons]
    refine ⟨fun hx => ?_, ih.filter _⟩
    rcases List.mem_filter.mp hx with ⟨_, hne⟩
    simp at hne

/-- Stable first-occurrence deduplication is one valid outcome of
`list(set(xs))`. -/
theorem dedupFirst_valid : ValidSetList dedupFirst :=
  fun xs => ⟨nodup_dedupFirst xs, fun a => mem_dedupFirst xs a⟩

/-- The reversed enumeration is another valid outcome. -/
theorem revEnum_valid : ValidSetList revEnum := by
  intro xs
  refine ⟨List.nodup_reverse.mpr (nodup_dedupFirst xs), fun a => ?_⟩
  simp [revEnum, mem_dedupFirst]

theorem validSetList_nil {enum : List String → List String}
    (h : ValidSetList enum) : enum [] = [] := by
  rcases List.eq_nil_or_concat (enum []) with he | ⟨l, a, he⟩
  · exact he
  · exfalso
    have := ((h []).2 a).mp (by rw [he]; simp)
    simp at this

/-! ### Indexed items and the `outros` cluster -/

theorem enumIdx_fst_ge {α : Type} {n i : ℕ} {x : α} :
    ∀ {l : List α}, (i, x) ∈ enumIdx n l → n ≤ i := by
  intro l
  induction l generalizing n with
  | nil => intro h; cases h
  | cons z zs ih =>
    intro h
    rcases List.mem_cons.mp h with h1 | h1
    · cases h1; exact le_refl _
    · exact le_trans (Nat.le_succ n) (ih h1)

theorem enumIdx_unique {α : Type} {n i : ℕ} {x y : α} {l : List α}
    (hx : (i, x) ∈ enumIdx n l) (hy : (i, y) ∈ enumIdx n l) : x = y := by
  induction l generalizing n with
  | nil => cases hx
  | cons z zs ih =>
    rcases List.mem_cons.mp hx with h1 | h1 <;> rcases List.mem_cons.mp hy with h2 | h2
    · cases h1; cases h2; rfl
    · cases h1
      exact absurd (enumIdx_fst_ge h2) (by omega)
    · cases h2
      exact absurd (enumIdx_fst_ge h1) (by omega)
    · exact ih h1 h2

theorem foldl_append_mem {α β : Type} (g : α → List β) (l : List α)
    (init : List β) (b : β) :
    b ∈ l.foldl (fun acc pr => acc ++ g pr) init ↔ b ∈ init ∨ ∃ pr ∈ l, b ∈ g pr := by
  induction l generalizing init with
  | nil => simp
  | cons x xs ih =>
    rw [List.foldl_cons, ih]
    simp only [List.mem_append, List.mem_cons]
    constructor
    · rintro ((h | h) | ⟨pr, hpr, hb⟩)
      · exact .inl h
      · exact .inr ⟨x, .inl rfl, h⟩
      · exact .inr ⟨pr, .inr hpr, hb⟩
    · rintro (h | ⟨pr, rfl | hpr, hb⟩)
      · exact .inl (.inl h)
      · exact .inl (.inr hb)
      · exact .inr ⟨pr, hpr, hb⟩

theorem enumIdx_filter_map_snd {α : Type} (Q : ℕ × α → Bool) (R : α → Bool) :
    ∀ (l : List α) (n : ℕ), (∀ i x, (i, x) ∈ enumIdx n l → Q (i, x) = R x) →
    ((enumIdx n l).filter Q).map (·.2) = l.filter R := by
  intro l
  induction l with
  | nil => intro n _; rfl
  | cons z zs ih =>
    intro n hQ
    rw [show enumIdx n (z :: zs) = (n, z) :: enumIdx (n + 1) zs from rfl,
      List.filter_cons, List.filter_cons]
    rw [hQ n z (List.mem_cons_self _ _)]
    by_cases hz : R z = true
    · rw [if_pos (by rw [hz]), if_pos hz, List.map_cons,
        ih (n + 1) (fun i x hmem => hQ i x (List.mem_cons_of_mem _ hmem))]
    · rw [if_neg (by rw [eq_false_of_ne_true hz]; simp),
        if_neg (by rw [eq_false_of_ne_true hz]; simp),
        ih (n + 1) (fun i x hmem => hQ i x (List.mem_cons_of_mem _ hmem))]

/-- The `id()`-based "already classified" bookkeeping marks exactly the
indices whose item mentions some selected entity. -/
theorem classified_any_eq (data : List Item) (i : ℕ) (x : Item)
    (hmem : (i, x) ∈ enumIdx 0 data) :
    ((((topEntities data).map (fun e => (e, (enumIdx 0 data).filter
        (fun q => decide (e ∈ q.2.entities))))).foldl
      (fun acc pr => acc ++ pr.2.map (·.1)) []).any (fun j => decide (j = i))) =
    ((topEntities data).any (fun e => decide (e ∈ x.entities))) := by
  rw [Bool.eq_iff_iff, List.any_eq_true, List.any_eq_true]
  constructor
  · rintro ⟨j, hj, hji⟩
    rw [decide_eq_true_eq] at hji
    subst hji
    rw [foldl_append_mem] at hj
    rcases hj with h | ⟨pr, hpr, hjpr⟩
    · cases h
    · rcases List.mem_map.mp hpr with ⟨e, he, rfl⟩
      rcases List.mem_map.mp hjpr with ⟨q, hq, hq1⟩
      rcases List.mem_filter.mp hq with ⟨hqm, hqe⟩
      have hx : q.2 = x := by
        rcases q with ⟨qi, qx⟩
        simp only at hq1
        subst hq1
        exact enumIdx_unique hqm hmem
      exact ⟨e, he, by rw [← hx]; exact hqe⟩
  · rintro ⟨e, he, hex⟩
    refine ⟨i, ?_, by simp⟩
    rw [foldl_append_mem]
    refine .inr ⟨(e, (enumIdx 0 data).filter (fun q => decide (e ∈ q.2.entities))),
      List.mem_map.mpr ⟨e, he, rfl⟩, ?_⟩
    exact List.mem_map.mpr ⟨(i, x), List.mem_filter.mpr ⟨hmem, hex⟩, rfl⟩

/-- `group_by_topic`, rewritten without the index bookkeeping: the named
clusters are plain filters and `outros` holds exactly the items that
mention no selected entity. -/
theorem group_by_topic_eq (data : List Item)
    (hno : "outros" ∉ topEntities data) :
    group_by_topic data =
      (topEntities data).map
          (fun e => (e, data.filter (fun it => decide (e ∈ it.entities))))
        ++ [("outros", data.filter (fun it =>
            !((topEntities data).any (fun e => decide (e ∈ it.entities)))))] := by
  simp only [group_by_topic, dictInsert]
  rw [if_neg ?hc]
  case hc =>
    intro hC
    rcases List.any_eq_true.mp hC with ⟨q, hq, hdec⟩
    rcases List.mem_map.mp hq with ⟨pr, hpr, rfl⟩
    rcases List.mem_map.mp hpr with ⟨e, he, rfl⟩
    exact hno ((of_decide_eq_true hdec) ▸ he)
  congr 1
  · rw [List.map_map]
    apply List.map_congr_left
    intro e _
    simp only [Function.comp]
    congr 1
    exact enumIdx_filter_map_snd _ _ data 0 (fun i x _ => rfl)
  · congr 2
    apply enumIdx_filter_map_snd
    intro i x hmem
    have := classified_any_eq data i x hmem
    rw [this]

/-! ### Lemmas about the per-source metrics accumulation -/

theorem tableUpdate_mem {β : Type} (f : β → β) (tbl : List (String × β)) (k : String) :
    ∀ q ∈ tableUpdate f tbl k, q ∈ tbl ∨ ∃ m, (k, m) ∈ tbl ∧ q = (k, f m) := by
  induction tbl with
  | nil => simp [tableUpdate]
  | cons p ps ih =>
    intro q hq
    by_cases hp : p.1 = k
    · simp only [tableUpdate, if_pos hp] at hq
      rcases List.mem_cons.mp hq with rfl | hq
      · right
        refine ⟨p.2, ?_, by rw [hp]⟩
        rw [← hp]
        exact List.mem_cons_self _ _
      · left; exact List.mem_cons_of_mem _ hq
    · simp only [tableUpdate, if_neg hp] at hq
      rcases List.mem_cons.mp hq with rfl | hq
      · left; exact List.mem_cons_self _ _
      · rcases ih q hq with h | ⟨m, hm, rfl⟩
        · left; exact List.mem_cons_of_mem _ h
        · right; exact ⟨m, List.mem_cons_of_mem _ hm, rfl⟩

theorem tableUpdate_append_fresh {β : Type} (f : β → β) (tbl : List (String × β))
    (k : String) (m : β) (h : tbl.any (fun q => decide (q.1 = k)) = false) :
    tableUpdate f (tbl ++ [(k, m)]) k = tbl ++ [(k, f m)] := by
  induction tbl with
  | nil => simp [tableUpdate]
  | cons p ps ih =>
    simp only [List.any_cons, Bool.or_eq_false_iff] at h
    have hp : ¬ p.1 = k := by simpa using h.1
    simp only [List.cons_append, tableUpdate, if_neg hp]
    exact congrArg (p :: ·) (ih h.2)

/-- Every row of the accumulation table has seen at least one item, and
the step preserves this. -/
theorem metricsStep_total (th : ℚ) (tbl : List (String × SourceMetrics)) (it : Item)
    (h : ∀ p ∈ tbl, 1 ≤ p.2.total_items) :
    ∀ p ∈ metricsStep th tbl it, 1 ≤ p.2.total_items := by
  intro p hp
  simp only [metricsStep] at hp
  by_cases hmem : tbl.any (fun q => decide (q.1 = it.source.getD "Desconhecido")) = true
  · rw [if_pos hmem] at hp
    rcases tableUpdate_mem _ _ _ p hp with h1 | ⟨m, _, rfl⟩
    · exact h p h1
    · simp
  · rw [if_neg hmem,
      tableUpdate_append_fresh _ _ _ _ (eq_false_of_ne_true hmem)] at hp
    rcases List.mem_append.mp hp with h1 | h1
    · exact h p h1
    · rcases List.mem_singleton.mp h1 with rfl
      simp

theorem metrics_fold_total (th : ℚ) (items : List Item) :
    ∀ tbl : List (String × SourceMetrics), (∀ p ∈ tbl, 1 ≤ p.2.total_items) →
    ∀ p ∈ items.foldl (metricsStep th) tbl, 1 ≤ p.2.total_items := by
  induction items with
  | nil => intro tbl h; simpa using h
  | cons it its ih =>
    intro tbl h
    exact ih (metricsStep th tbl it) (metricsStep_total th tbl it h)

/-! ### The conditional-append loop of the recommendations -/

theorem foldl_if_append {α β : Type} (c : α → Prop) [DecidablePred c] (g : α → β)
    (l : List α) :
    ∀ init : List β,
    l.foldl (fun acc t => if c t then acc ++ [g t] else acc) init
      = init ++ (l.filter (fun t => decide (c t))).map g := by
  induction l with
  | nil => intro init; simp
  | cons x xs ih =>
    intro init
    rw [List.foldl_cons, List.filter_cons]
    by_cases hx : c x
    · rw [if_pos hx, ih, if_pos (by simp [hx]), List.map_cons]
      simp
    · rw [if_neg hx, ih, if_neg (by simp [hx])]

/-! ### Claim theorems -/

/-- C1: every topic insight carries
`trend_score = count*0.6 + avg_engagement*0.4`; `trend_status` is `Alta`
exactly when `trend_score > trending_threshold`, `Média` exactly when
`trending_threshold/2 < trend_score ≤ trending_threshold`, and `Baixa`
otherwise — both comparisons strict, so at the default threshold `0.7` a
score of exactly `0.7` is `Média` and a score of exactly `0.35` is
`Baixa` — and the returned list is a permutation of the per-candidate
insights, sorted descending by `trend_score` with ties keeping source
order (the elements of any fixed score appear exactly as in the source
order). -/
theorem claim1_topic_insights (th : ℚ) (trending : List TrendTopic) :
    List.Perm (generate_topic_insights th trending) (trending.map (insightOf th))
    ∧ (generate_topic_insights th trending).Sorted
        (fun a b => b.trend_score ≤ a.trend_score)
    ∧ (∀ k : ℚ, (generate_topic_insights th trending).filter
          (fun i => decide (i.trend_score = k))
        = (trending.map (insightOf th)).filter (fun i => decide (i.trend_score = k)))
    ∧ (∀ t : TrendTopic, (insightOf th t).trend_score
        = (t.count : ℚ) * 0.6 + t.avg_engagement * 0.4)
    ∧ (∀ t : TrendTopic,
        ((insightOf th t).trend_status = "Alta" ↔ th < (insightOf th t).trend_score)
        ∧ ((insightOf th t).trend_status = "Média" ↔
            (th / 2 < (insightOf th t).trend_score ∧ (insightOf th t).trend_score ≤ th))
        ∧ ((insightOf th t).trend_status = "Baixa" ↔
            ((insightOf th t).trend_score ≤ th / 2 ∧ (insightOf th t).trend_score ≤ th)))
    ∧ (insightOf 0.7 boundaryMedia).trend_score = 0.7
    ∧ (insightOf 0.7 boundaryMedia).trend_status = "Média"
    ∧ (insightOf 0.7 boundaryBaixa).trend_score = 0.35
    ∧ (insightOf 0.7 boundaryBaixa).trend_status = "Baixa" := by
  have hscore : ∀ t : TrendTopic, (insightOf th t).trend_score
      = (t.count : ℚ) * 0.6 + t.avg_engagement * 0.4 := fun t => rfl
  have hstatus : ∀ (th' : ℚ) (t : TrendTopic), (insightOf th' t).trend_status =
      if th' < (t.count : ℚ) * 0.6 + t.avg_engagement * 0.4 then "Alta"
      else if th' / 2 < (t.count : ℚ) * 0.6 + t.avg_engagement * 0.4 then "Média"
      else "Baixa" := fun th' t => rfl
  refine ⟨sortDescBy_perm _ _, sortDescBy_sorted _ _,
    fun k => filter_sortDescBy _ k _, hscore, fun t => ?_, ?_, ?_, ?_, ?_⟩
  · rw [hscore t, hstatus th t]
    by_cases h1 : th < (t.count : ℚ) * 0.6 + t.avg_engagement * 0.4
    · rw [if_pos h1]
      refine ⟨by simp [h1], ?_, ?_⟩
      · constructor
        · intro h; exact absurd h (by decide)
        · rintro ⟨-, hle⟩; exact absurd h1 (not_lt.mpr hle)
      · constructor
        · intro h; exact absurd h (by decide)
        · rintro ⟨-, hle⟩; exact absurd h1 (not_lt.mpr hle)
    · rw [if_neg h1]
      by_cases h2 : th / 2 < (t.count : ℚ) * 0.6 + t.avg_engagement * 0.4
      · rw [if_pos h2]
        refine ⟨⟨fun h => absurd h (by decide), fun h => absurd h h1⟩,
          by simp [h2, not_lt.mp h1], ?_⟩
        constructor
        · intro h; exact absurd h (by decide)
        · rintro ⟨hle, -⟩; exact absurd h2 (not_lt.mpr hle)
      · rw [if_neg h2]
        refine ⟨⟨fun h => absurd h (by decide), fun h => absurd h h1⟩,
          ⟨fun h => absurd h (by decide), ?_⟩,
          by simp [not_lt.mp h1, not_lt.mp h2]⟩
        rintro ⟨hlt, -⟩
        exact absurd hlt h2
  · show ((1 : ℕ) : ℚ) * 0.6 + 0.25 * 0.4 = 0.7
    norm_num
  · rw [hstatus]
    rw [if_neg (by norm_num [boundaryMedia]), if_pos (by norm_num [boundaryMedia])]
  · show ((0 : ℕ) : ℚ) * 0.6 + 0.875 * 0.4 = 0.35
    norm_num
  · rw [hstatus]
    rw [if_neg (by norm_num [boundaryBaixa]), if_neg (by norm_num [boundaryBaixa])]

/-- C2: a recommendation is emitted for a topic exactly when either
`trend_score > trending_threshold` (priority `Alta` when the topic has at
least three key facts, else `Média`) or
`trending_threshold/2 < trend_score ≤ trending_threshold` with at least
two key facts (priority `Média`); the two bands are disjoint, and topics
failing both conditions contribute nothing (and no error is possible —
the function is total). -/
theorem claim2_recommendation_bands (th : ℚ) (trending : List TrendTopic) :
    generate_content_recommendations th trending =
      (trending.filter (fun t => decide (th < trendScoreOf t))).map highRec
        ++ (trending.filter (fun t => decide (th / 2 < trendScoreOf t
              ∧ trendScoreOf t ≤ th ∧ 2 ≤ t.key_facts.length))).map mediumRec
    ∧ (∀ t : TrendTopic, ¬(th < trendScoreOf t
        ∧ th / 2 < trendScoreOf t ∧ trendScoreOf t ≤ th))
    ∧ (∀ t : TrendTopic, (highRec t).priority =
        if 3 ≤ t.key_facts.length then "Alta" else "Média")
    ∧ (∀ t : TrendTopic, (mediumRec t).priority = "Média") := by
  refine ⟨?_, ?_, fun t => rfl, fun t => rfl⟩
  · unfold generate_content_recommendations
    rw [foldl_if_append (fun t : TrendTopic => 2 ≤ t.key_facts.length) mediumRec]
    congr 1
    congr 1
    rw [List.filter_filter]
    apply List.filter_congr
    intro t _
    by_cases h1 : th / 2 < trendScoreOf t <;>
      by_cases h2 : trendScoreOf t ≤ th <;>
        by_cases h3 : 2 ≤ t.key_facts.length <;>
          simp [h1, h2, h3]
  · rintro t ⟨hhigh, -, hle⟩
    exact absurd hhigh (not_lt.mpr hle)

/-- C5: raising the engagement percentile never enlarges the filtered
list — the quantile threshold is monotone in the percentile, so the
filter with the larger percentile keeps a subset. -/
theorem claim5_engagement_filter_monotone (data : List Item) (p1 p2 : ℚ)
    (h0 : 0 ≤ p1) (h12 : p1 ≤ p2) (h21 : p2 ≤ 1) :
    (filter_by_engagement p2 data).length ≤ (filter_by_engagement p1 data).length := by
  rw [filter_by_engagement_eq, filter_by_engagement_eq]
  apply List.Sublist.length_le
  apply List.monotone_filter_right
  intro it hit
  have h2 : quantileLinear (data.map engagementValue) p2 ≤ engagementValue it :=
    of_decide_eq_true hit
  exact decide_eq_true
    (le_trans (quantileLinear_mono (data.map engagementValue) h0 h12) h2)

/-- Witness for C5 at the concrete two-item list and percentiles `0 ≤ 1`. -/
theorem claim5_engagement_filter_monotone_witness :
    (filter_by_engagement 1 efData).length ≤ (filter_by_engagement 0 efData).length :=
  claim5_engagement_filter_monotone efData 0 1 (le_refl 0) zero_le_one (le_refl 1)

/-- C10: on a non-empty input the engagement filter returns an
order-preserving subsequence that is never empty — the linear quantile
never exceeds the largest engagement value, so an item attaining it
always passes. -/
theorem claim10_engagement_filter_nonempty (data : List Item) (p : ℚ)
    (hne : data ≠ []) (h0 : 0 ≤ p) (h1 : p ≤ 1) :
    (filter_by_engagement p data).Sublist data
      ∧ filter_by_engagement p data ≠ [] := by
  constructor
  · rw [filter_by_engagement_eq]
    exact List.filter_sublist data
  · rw [filter_by_engagement_eq]
    have hlen : (data.map engagementValue).length ≠ 0 := by
      simpa using fun h => hne (List.eq_nil_of_length_eq_zero h)
    have hslen : (sortAsc (data.map engagementValue)).length ≠ 0 := by
      rw [sortAsc_length]; exact hlen
    have hvm : (sortAsc (data.map engagementValue)).getD
        ((sortAsc (data.map engagementValue)).length - 1) 0
        ∈ sortAsc (data.map engagementValue) := by
      rw [List.getD_eq_getElem _ _ (Nat.sub_lt (Nat.pos_of_ne_zero hslen) one_pos)]
      exact List.getElem_mem _
    have hvvals := (sortAsc_perm (data.map engagementValue)).subset hvm
    rcases List.mem_map.mp hvvals with ⟨it, hit, hitv⟩
    have hthr : quantileLinear (data.map engagementValue) p ≤ engagementValue it := by
      rw [hitv]
      unfold quantileLinear
      rw [if_neg hlen]
      exact quantAt_le_last (sortAsc_sorted _) hslen _
    exact List.ne_nil_of_mem
      (List.mem_filter.mpr ⟨hit, decide_eq_true hthr⟩)

/-- Witness for C10 at the concrete two-item list and percentile `0`. -/
theorem claim10_engagement_filter_nonempty_witness :
    (filter_by_engagement 0 efData).Sublist efData
      ∧ filter_by_engagement 0 efData ≠ [] :=
  claim10_engagement_filter_nonempty efData 0
    (List.cons_ne_nil _ _) (le_refl 0) zero_le_one

/-- C9: every emitted per-source metrics row has `total_items ≥ 1` (a
source appears only once an item of that source has been counted), so
the averaging step always takes the division branch:
`avg_engagement = total_engagement / total_items` and
`high_engagement_percentage = high_engagement_items / total_items * 100`
— the `total_items = 0` fallback is unreachable. -/
theorem claim9_metrics_rows_nonzero (th : ℚ) (topics : List (String × List Item)) :
    ∀ p ∈ generate_engagement_metrics th topics,
      1 ≤ p.2.total_items
      ∧ p.2.avg_engagement = p.2.total_engagement / (p.2.total_items : ℚ)
      ∧ p.2.high_engagement_percentage
          = ((p.2.high_engagement_items : ℚ) / (p.2.total_items : ℚ)) * 100 := by
  intro p hp
  simp only [generate_engagement_metrics] at hp
  rcases List.mem_map.mp hp with ⟨q, hq, rfl⟩
  have hq1 : 1 ≤ q.2.total_items :=
    metrics_fold_total th (allItemsOfTopics topics) [] (by simp) q hq
  rw [if_pos (Nat.lt_of_lt_of_le Nat.zero_lt_one hq1)]
  exact ⟨hq1, rfl, rfl⟩

/-- Witness for C9: the concrete one-item topics mapping yields the row
for source `G1` with one item and zero engagement. -/
theorem claim9_metrics_rows_nonzero_witness :
    1 ≤ emRow.2.total_items
    ∧ emRow.2.avg_engagement = emRow.2.total_engagement / (emRow.2.total_items : ℚ)
    ∧ emRow.2.high_engagement_percentage
        = ((emRow.2.high_engagement_items : ℚ) / (emRow.2.total_items : ℚ)) * 100 :=
  claim9_metrics_rows_nonzero 0 emTopics emRow
    (by simp [generate_engagement_metrics, allItemsOfTopics, emTopics, metricsStep,
      zeroItem, engagementValue, emptyMetrics, tableUpdate, emRow])

/-- C6: merging the entity and hashtag frequency tables sums the counts
of identical string keys, and on the concrete example — entity stream
`Lula, Dilma, Lula`, hashtag stream `Lula, Bolsonaro` — the merged
counts are `Lula = 3`, `Dilma = 1`, `Bolsonaro = 1`, and with
`top_n = 2` the candidates are `Lula, Dilma` (the `Dilma`/`Bolsonaro`
tie is broken by first-seen order). -/
theorem claim6_trend_merge :
    (∀ (es hs : List String) (k : String),
        counterLookup (counterMerge (counterOf es) (counterOf hs)) k
          = es.count k + hs.count k)
    ∧ allEntities [tmItem1, tmItem2] = ["Lula", "Dilma", "Lula"]
    ∧ allHashtags [tmItem1, tmItem2] = ["Lula", "Bolsonaro"]
    ∧ counterLookup (counterMerge (counterOf (allEntities [tmItem1, tmItem2]))
        (counterOf (allHashtags [tmItem1, tmItem2]))) "Lula" = 3
    ∧ counterLookup (counterMerge (counterOf (allEntities [tmItem1, tmItem2]))
        (counterOf (allHashtags [tmItem1, tmItem2]))) "Dilma" = 1
    ∧ counterLookup (counterMerge (counterOf (allEntities [tmItem1, tmItem2]))
        (counterOf (allHashtags [tmItem1, tmItem2]))) "Bolsonaro" = 1
    ∧ (extract_trending_topics dedupFirst [tmItem1, tmItem2] 2).map
        (fun t => (t.topic, t.count)) = [("Lula", 3), ("Dilma", 1)] := by
  refine ⟨fun es hs k => ?_, by decide, by decide, by decide, by decide,
    by decide, by decide⟩
  rw [counterMerge_lookup _ _ (counterOf_pos es) (counterOf_pos hs),
    counterLookup_counterOf, counterLookup_counterOf]

/-- C3 (refutation): `extract_key_facts` deduplicates through Python's
unordered `list(set(...))`, so first-occurrence order is NOT preserved.
With two qualifying sentences `sentA, sentB` in source order, the
reversed enumeration — as valid an outcome of `list(set(...))` as any —
returns `[sentB, sentA]`, not the claimed `[sentA, sentB]`. -/
theorem claim3_key_fact_order_bug :
    ValidSetList revEnum
    ∧ extract_key_facts dedupFirst [kfItem] "Lula" = [sentA, sentB]
    ∧ extract_key_facts revEnum [kfItem] "Lula" = [sentB, sentA]
    ∧ [sentB, sentA] ≠ [sentA, sentB] :=
  ⟨revEnum_valid, by decide, by decide, by decide⟩

/-- The relevance filter keeps the key-fact item (its score `1` is at
least the `0.6` default). -/
theorem kfItem_relevance : filter_by_relevance 0.6 [kfItem] = [kfItem] := by
  unfold filter_by_relevance
  rw [List.filter_cons, if_pos (by norm_num [kfItem]), List.filter_nil]

/-- The engagement filter keeps the key-fact item (the quantile of the
single value `1` is at most `1`). -/
theorem kfItem_engagement : filter_by_engagement 0.3 [kfItem] = [kfItem] := by
  rw [filter_by_engagement_eq]
  have hq : quantileLinear ([kfItem].map engagementValue) 0.3 ≤ engagementValue kfItem := by
    unfold quantileLinear
    rw [if_neg (by simp)]
    exact quantAt_le_last (sortAsc_sorted _) (by simp [sortAsc, insertAsc]) _
  rw [List.filter_cons, if_pos (decide_eq_true hq), List.filter_nil]

/-- The trending key facts of the consolidated output, as a function of
the set enumeration. -/
theorem consolidate_kfItem_key_facts (enum : List String → List String) (now : String) :
    (consolidate_data enum now [kfItem]).trending_topics.map (·.key_facts)
      = [extract_key_facts enum [kfItem] "Lula"] := by
  simp only [consolidate_data, kfItem_relevance, kfItem_engagement]
  rw [List.map_map]
  unfold extract_trending_topics
  rw [List.map_map,
    show mostCommon 5 (counterMerge (counterOf (allEntities [kfItem]))
      (counterOf (allHashtags [kfItem]))) = [("Lula", 1)] from by decide]
  rfl

/-- C4 (refutation): two runs of the consolidation pipeline on the same
one-item snapshot may serialize different bundles, because the key-fact
order depends on the set-enumeration order of the run (and the embedded
timestamp differs as well, even though it is held fixed here). -/
theorem claim4_pipeline_not_deterministic :
    ValidSetList dedupFirst
    ∧ ValidSetList revEnum
    ∧ (consolidate_data dedupFirst "T" [kfItem]).trending_topics.map (·.key_facts)
        = [[sentA, sentB]]
    ∧ (consolidate_data revEnum "T" [kfItem]).trending_topics.map (·.key_facts)
        = [[sentB, sentA]]
    ∧ consolidate_data dedupFirst "T" [kfItem]
        ≠ consolidate_data revEnum "T" [kfItem] := by
  have hA : (consolidate_data dedupFirst "T" [kfItem]).trending_topics.map (·.key_facts)
      = [[sentA, sentB]] := by
    rw [consolidate_kfItem_key_facts]
    rw [show extract_key_facts dedupFirst [kfItem] "Lula" = [sentA, sentB] from by decide]
  have hB : (consolidate_data revEnum "T" [kfItem]).trending_topics.map (·.key_facts)
      = [[sentB, sentA]] := by
    rw [consolidate_kfItem_key_facts]
    rw [show extract_key_facts revEnum [kfItem] "Lula" = [sentB, sentA] from by decide]
  refine ⟨dedupFirst_valid, revEnum_valid, hA, hB, fun h => ?_⟩
  have := congrArg (fun c : Consolidated => c.trending_topics.map (·.key_facts)) h
  simp only at this
  rw [hA, hB] at this
  exact absurd this (by decide)

/-- On a table with distinct keys, lookup of a member's key returns its
count. -/
theorem counterLookup_of_mem_nodup {c : List (String × ℕ)}
    (hnd : (c.map (·.1)).Nodup) {p : String × ℕ} (hp : p ∈ c) :
    counterLookup c p.1 = p.2 := by
  induction c with
  | nil => cases hp
  | cons q qs ih =>
    rw [List.map_cons, List.nodup_cons] at hnd
    rcases List.mem_cons.mp hp with rfl | hp
    · simp [counterLookup]
    · have hne : ¬ q.1 = p.1 := fun h => hnd.1 (h ▸ List.mem_map.mpr ⟨p, hp, rfl⟩)
      rw [counterLookup_cons, if_neg hne]
      exact ih hnd.2 hp

/-- C7 (refutation): when the literal string `outros` is itself a
selected entity (here it occurs twice as an entity), the final
`topics["outros"]` dict assignment overwrites that entity's cluster with
the unclassified bucket — which is empty, because both items were
classified into the overwritten cluster.  So the `outros`-named cluster
does not contain the items mentioning `outros` (refuting the
exact-cluster conjunct), and those items appear in no cluster at all
(refuting the coverage conjunct). -/
theorem claim7_outros_collision_counterexample :
    "outros" ∈ topEntities ovData
    ∧ group_by_topic ovData = [("outros", [])]
    ∧ ovData.filter (fun it => decide ("outros" ∈ it.entities)) = ovData
    ∧ ovData ≠ []
    ∧ (group_by_topic ovData).all (fun pr => decide (ovItem ∉ pr.2)) = true
    ∧ ovItem ∈ ovData :=
  ⟨by decide, by decide, by decide, by decide, by decide, by decide⟩

/-- C7 (amended): provided the reserved name `outros` is not among the
selected entities, topic grouping selects at most ten entities, each with
frequency above one, in descending frequency order with ties kept in the
counter's first-seen order (the counter keys are the entities in
first-occurrence order); every named cluster is exactly the filter of
the items mentioning its entity, and `outros` holds exactly the items
that mention no selected entity — so every item lies in `outros` or in
some named cluster.  (If `outros` is selected, the final dict assignment
overwrites its cluster and drops its items, as the counterexample
shows.) -/
theorem claim7_topic_grouping_amended (data : List Item)
    (hno : "outros" ∉ topEntities data) :
    (topEntities data).length ≤ 10
    ∧ (∀ p ∈ selectedPairs data,
        counterLookup (counterOf (allEntities data)) p.1 = p.2 ∧ 1 < p.2)
    ∧ (selectedPairs data).Sorted (fun a b => b.2 ≤ a.2)
    ∧ (∀ c : ℕ, (selectedPairs data).filter (fun p => decide (p.2 = c))
        <+: (counterOf (allEntities data)).filter (fun p => decide (p.2 = c)))
    ∧ (counterOf (allEntities data)).map (·.1) = dedupFirst (allEntities data)
    ∧ group_by_topic data =
        (topEntities data).map
            (fun e => (e, data.filter (fun it => decide (e ∈ it.entities))))
          ++ [("outros", data.filter (fun it =>
              !((topEntities data).any (fun e => decide (e ∈ it.entities)))))]
    ∧ (∀ it ∈ data, (∃ e ∈ topEntities data, e ∈ it.entities)
        ∨ it ∈ data.filter (fun it' =>
            !((topEntities data).any (fun e => decide (e ∈ it'.entities))))) := by
  refine ⟨?_, ?_, ?_, ?_, counterOf_keys _, group_by_topic_eq data hno, ?_⟩
  · calc (topEntities data).length = (selectedPairs data).length := by
          simp [topEntities]
      _ ≤ (mostCommon 10 (counterOf (allEntities data))).length :=
          (List.filter_sublist _).length_le
      _ ≤ 10 := by
          simpa [mostCommon] using List.length_take_le 10 _
  · intro p hp
    rcases List.mem_filter.mp hp with ⟨hmem, hcnt⟩
    have hmem1 : p ∈ (sortDescBy (fun q : String × ℕ => q.2)
        (counterOf (allEntities data))).take 10 := hmem
    have hmem2 : p ∈ counterOf (allEntities data) :=
      (sortDescBy_perm (fun q : String × ℕ => q.2) _).subset
        (List.mem_of_mem_take hmem1)
    refine ⟨counterLookup_of_mem_nodup ?_ hmem2, by simpa using hcnt⟩
    rw [counterOf_keys]
    exact nodup_dedupFirst _
  · apply List.Pairwise.sublist (List.filter_sublist _)
    apply List.Pairwise.sublist (List.take_sublist _ _)
    exact sortDescBy_sorted (fun q : String × ℕ => q.2) (counterOf (allEntities data))
  · intro c
    have h1 : (selectedPairs data).filter (fun p => decide (p.2 = c))
        = ((sortDescBy (·.2) (counterOf (allEntities data))).take 10).filter
            (fun p => decide (p.2 = c) && decide (1 < p.2)) := by
      simp [selectedPairs, mostCommon, List.filter_filter]
    by_cases hc : 1 < c
    · rw [h1]
      have h2 : ((sortDescBy (·.2) (counterOf (allEntities data))).take 10).filter
            (fun p => decide (p.2 = c) && decide (1 < p.2))
          = ((sortDescBy (·.2) (counterOf (allEntities data))).take 10).filter
            (fun p => decide (p.2 = c)) := by
        apply List.filter_congr
        intro p _
        by_cases hp : p.2 = c
        · simp [hp, hc]
        · simp [hp]
      rw [h2]
      have h3 := (List.take_prefix 10
        (sortDescBy (fun q : String × ℕ => q.2) (counterOf (allEntities data)))).filter
          (fun p : String × ℕ => decide (p.2 = c))
      rwa [filter_sortDescBy (fun q : String × ℕ => q.2) c
        (counterOf (allEntities data))] at h3
    · rw [h1]
      have h2 : ((sortDescBy (·.2) (counterOf (allEntities data))).take 10).filter
            (fun p => decide (p.2 = c) && decide (1 < p.2)) = [] := by
        rw [List.filter_eq_nil_iff]
        intro p _
        by_cases hp : p.2 = c
        · simp [hp, hc]
        · simp [hp]
      rw [h2]
      exact List.nil_prefix
  · intro it hit
    by_cases h : (topEntities data).any (fun e => decide (e ∈ it.entities)) = true
    · left
      rcases List.any_eq_true.mp h with ⟨e, he, hee⟩
      exact ⟨e, he, of_decide_eq_true hee⟩
    · right
      exact List.mem_filter.mpr ⟨hit, by simp [eq_false_of_ne_true h]⟩

/-- Witness for C7's amended statement at the concrete three-item list:
`outros` is not selected, `Lula` (frequency 2) is, and the `Dilma`-only
item falls into `outros`. -/
theorem claim7_topic_grouping_amended_witness :
    (counterLookup (counterOf (allEntities grData)) "Lula" = 2 ∧ 1 < 2)
    ∧ ((∃ e ∈ topEntities grData, e ∈ grItemD.entities)
        ∨ grItemD ∈ grData.filter (fun it' =>
            !((topEntities grData).any (fun e => decide (e ∈ it'.entities))))) :=
  ⟨(claim7_topic_grouping_amended grData (by decide)).2.1 ("Lula", 2) (by decide),
   (claim7_topic_grouping_amended grData (by decide)).2.2.2.2.2.2 grItemD (by decide)⟩

/-- C8 (refutation of the grouping conjunct): on the empty input,
`group_by_topic` does not return an empty mapping — it still emits the
reserved `outros` key. -/
theorem claim8_empty_grouping_counterexample :
    group_by_topic ([] : List Item) ≠ [] := by decide

/-- C8 (amended): a load failure yields the empty list, and every core
stage maps an empty input to an output with no items — the filters,
trend extraction and key-fact extraction return empty lists, while topic
grouping returns the single reserved `outros` cluster, itself empty. -/
theorem claim8_fail_soft_amended (e : String) (m p : ℚ) (n : ℕ) (topic : String)
    (enum : List String → List String) (henum : ValidSetList enum) :
    load_data (Except.error e) = []
    ∧ filter_by_relevance m [] = []
    ∧ filter_by_engagement p [] = []
    ∧ group_by_topic [] = [("outros", [])]
    ∧ extract_trending_topics enum [] n = []
    ∧ extract_key_facts enum [] topic = [] := by
  refine ⟨rfl, rfl, rfl, rfl, ?_, ?_⟩
  · simp [extract_trending_topics, mostCommon, counterMerge, counterOf,
      allEntities, allHashtags, sortDescBy]
  · show (((enum []).filter (fun s => decide (5 < wordCount s))).take 10) = []
    rw [validSetList_nil henum]
    rfl

/-- Witness for C8's amended statement at concrete arguments, with the
stable deduplication as the concrete valid set enumeration. -/
theorem claim8_fail_soft_amended_witness :
    load_data (Except.error "falha") = []
    ∧ filter_by_relevance 0.6 [] = []
    ∧ filter_by_engagement 0.3 [] = []
    ∧ group_by_topic [] = [("outros", [])]
    ∧ extract_trending_topics dedupFirst [] 5 = []
    ∧ extract_key_facts dedupFirst [] "Lula" = [] :=
  claim8_fail_soft_amended "falha" 0.6 0.3 5 "Lula" dedupFirst dedupFirst_valid

end Agents
